import Mathlib

/-!
Verification development for the spell-checking engine
(`src/spellchecker/main.py` of DrDet/information-retrieval-course).

Python dictionaries are modelled as insertion-ordered association lists,
character strings as `List Char`, floating-point weights as `ℚ`, and the
`Levenshtein.editops` library call (external to the repository) is modelled
from the spec as a standard minimal edit-distance alignment.
-/

namespace Spellcheck

/-! ## Python dictionaries as insertion-ordered association lists -/

/-- `d[k]` lookup, `None` when absent (first matching key). -/
def dictGet [DecidableEq α] (d : List (α × β)) (k : α) : Option β :=
  (d.find? (fun p => p.1 = k)).map (fun p => p.2)

/-- `d[k] = v` assignment: updates the value in place when the key is
present, otherwise appends the new binding (Python insertion order). -/
def dictSet [DecidableEq α] : List (α × β) → α → β → List (α × β)
  | [], k, v => [(k, v)]
  | (k', v') :: rest, k, v =>
      if k' = k then (k', v) :: rest else (k', v') :: dictSet rest k v

/-- `d.setdefault(k, 0); d[k] += 1`: increment a counter entry,
starting it at 1 when absent. -/
def dictIncr [DecidableEq α] : List (α × Nat) → α → List (α × Nat)
  | [], k => [(k, 1)]
  | (k', v') :: rest, k =>
      if k' = k then (k', v' + 1) :: rest else (k', v') :: dictIncr rest k

/-! ## Edit operations (`OpType`, `EditOp`) -/

inductive OpType : Type where
  | replace : OpType
  | insert : OpType
  | delete : OpType
deriving DecidableEq

/-- The `EditOp` namedtuple: zero-or-one-character fields are `Option Char`
(`none` is the empty string). -/
structure EditOpClass where
  old_char : Option Char
  new_char : Option Char
  preceding_ctx : Option Char
  type : OpType
deriving DecidableEq

/-- The `EditOp` factory: the kind is derived from which of
`old_char`/`new_char` is empty (both single characters ⇒ replace,
empty `old_char` ⇒ insert, otherwise ⇒ delete). -/
def EditOp (old_char new_char preceding_ctx : Option Char) : EditOpClass :=
  match old_char, new_char with
  | some _, some _ => ⟨old_char, new_char, preceding_ctx, OpType.replace⟩
  | none, _ => ⟨old_char, new_char, preceding_ctx, OpType.insert⟩
  | some _, none => ⟨old_char, new_char, preceding_ctx, OpType.delete⟩

/-! ## ErrorModel -/

structure ErrorModel where
  Z : ℚ
  F : ℚ
  S : ℚ
  zero_level : List (OpType × Nat)
  first_level : List (EditOpClass × Nat)
  second_level : List (EditOpClass × Nat)

def ErrorModel.get_weight_of_error (m : ErrorModel)
    (old_char new_char preceding_ctx : Option Char) : ℚ :=
  let op := EditOp old_char new_char preceding_ctx
  -- The source guards this term with `op in self.zero_level`; the keys of
  -- `zero_level` are `OpType` values and never equal an `EditOp` tuple, so
  -- the guard is constantly false and the term is constantly 0
  -- (`self.zero_level[op.type]` is never consulted).
  let w_zero : ℚ := 0
  let w_first : ℚ := ((dictGet m.first_level op).getD 0 : Nat)
  let w_second : ℚ := ((dictGet m.second_level op).getD 0 : Nat)
  m.Z * w_zero + m.F * w_first + m.S * w_second

def ErrorModel.update_models (m : ErrorModel) (op_type : OpType)
    (old_char new_char preceding_ctx : Option Char) : ErrorModel :=
  let op1 := EditOp old_char new_char none
  let op2 := EditOp old_char new_char preceding_ctx
  { m with zero_level := dictIncr m.zero_level op_type,
           first_level := dictIncr m.first_level op1,
           second_level := dictIncr m.second_level op2 }

/-- Modelled from the spec: the repository calls the external
`Levenshtein.editops` to compute "the minimal sequence of character edit
operations (replace/insert/delete) transforming `old_word` into `new_word`
(standard edit-distance alignment)".  This model matches equal characters
greedily and otherwise takes a shortest script among the three one-step
choices; each op is `(kind, index in old word, index in new word)`.  The
fuel argument only forces termination and is never exhausted when it
starts at `|a| + |b|`. -/
def editopsFuel : Nat → List Char → List Char → Nat → Nat → List (OpType × Nat × Nat)
  | 0, _, _, _, _ => []
  | _ + 1, [], [], _, _ => []
  | fuel + 1, [], _ :: ys, oi, ni =>
      (OpType.insert, oi, ni) :: editopsFuel fuel [] ys oi (ni + 1)
  | fuel + 1, _ :: xs, [], oi, ni =>
      (OpType.delete, oi, ni) :: editopsFuel fuel xs [] (oi + 1) ni
  | fuel + 1, x :: xs, y :: ys, oi, ni =>
      if x = y then editopsFuel fuel xs ys (oi + 1) (ni + 1)
      else
        let r := (OpType.replace, oi, ni) :: editopsFuel fuel xs ys (oi + 1) (ni + 1)
        let d := (OpType.delete, oi, ni) :: editopsFuel fuel xs (y :: ys) (oi + 1) ni
        let i := (OpType.insert, oi, ni) :: editopsFuel fuel (x :: xs) ys oi (ni + 1)
        if r.length ≤ d.length ∧ r.length ≤ i.length then r
        else if d.length ≤ i.length then d else i

/-- Modelled from the spec: `Levenshtein.editops(a, b)`. -/
def editops (a b : List Char) : List (OpType × Nat × Nat) :=
  editopsFuel (a.length + b.length) a b 0 0

/-- `"" if old_i == 0 else old_w[old_i - 1]`: the character preceding the
edit site. -/
def ctxAt (old_w : List Char) (old_i : Nat) : Option Char :=
  if old_i = 0 then none else old_w.get? (old_i - 1)

def ErrorModel.add_spelling_correction (m : ErrorModel)
    (old_w new_w : List Char) : ErrorModel :=
  let ops := editops old_w new_w
  let folded := ops.foldl
    (fun (acc : ErrorModel × List Nat) op =>
      match op with
      | (OpType.replace, old_i, new_i) =>
          (acc.1.update_models OpType.replace
             (old_w.get? old_i) (new_w.get? new_i) (ctxAt old_w old_i),
           old_i :: acc.2)
      | (OpType.insert, old_i, new_i) =>
          (acc.1.update_models OpType.insert
             none (new_w.get? new_i) (ctxAt old_w old_i),
           old_i :: acc.2)
      | (OpType.delete, old_i, _) =>
          (acc.1.update_models OpType.delete
             (old_w.get? old_i) none (ctxAt old_w old_i),
           old_i :: acc.2))
    (m, [])
  let non_eqs := folded.2
  (List.range old_w.length).foldl
    (fun acc old_i =>
      if old_i ∈ non_eqs then acc
      else acc.update_models OpType.replace
        (old_w.get? old_i) (old_w.get? old_i) (ctxAt old_w old_i))
    folded.1

/-! ## Trie -/

inductive Trie : Type where
  | mk : Bool → List Char → Nat → List (Char × Trie) → List (List Char × Nat) → Trie

def Trie.is_terminal : Trie → Bool
  | .mk b _ _ _ _ => b

def Trie.word : Trie → List Char
  | .mk _ w _ _ _ => w

def Trie.freq : Trie → Nat
  | .mk _ _ f _ _ => f

def Trie.children : Trie → List (Char × Trie)
  | .mk _ _ _ cs _ => cs

def Trie.vocabulary : Trie → List (List Char × Nat)
  | .mk _ _ _ _ v => v

def Trie.withChildren : Trie → List (Char × Trie) → Trie
  | .mk b w f _ v, cs => .mk b w f cs v

def Trie.withVocabulary : Trie → List (List Char × Nat) → Trie
  | .mk b w f cs _, v => .mk b w f cs v

def Trie.END_MARKER : Char := '$'

/-- `Trie()` with all-default arguments. -/
def Trie.new : Trie := .mk false [] 0 [] []

/-- The recursion of `add_word` from position `|w| - |rest|`: at the end of
the word, create (or overwrite) the terminal-marker child carrying the full
word and its frequency; otherwise `setdefault` the child for the next
character and recurse into it. -/
def Trie.addWordGo : Trie → List Char → Nat → List Char → Trie
  | t, w, freq, [] =>
      t.withChildren (dictSet t.children Trie.END_MARKER (.mk true w freq [] []))
  | t, w, freq, c :: rest =>
      let to_node := (dictGet t.children c).getD Trie.new
      t.withChildren (dictSet t.children c (to_node.addWordGo w freq rest))

/-- `Trie.add_word(w, freq)` called at the root (`pos = 0`): record the word
in the root's flat vocabulary map, then insert along the trie. -/
def Trie.add_word (t : Trie) (w : List Char) (freq : Nat) : Trie :=
  (t.withVocabulary (dictSet t.vocabulary w freq)).addWordGo w freq w

/-- Build a trie by a sequence of `add_word` calls on an initially empty root. -/
def buildTrie (ws : List (List Char × Nat)) : Trie :=
  ws.foldl (fun t p => t.add_word p.1 p.2) Trie.new

/-- Follow the child edges spelling `path` from `t`. -/
def Trie.findNode : Trie → List Char → Option Trie
  | t, [] => some t
  | t, c :: rest =>
      match dictGet t.children c with
      | some child => child.findNode rest
      | none => none

/-! ## Stable sort (Python `list.sort`) -/

/-- Stable insertion: `x` goes before the first element `y` with `le x y`. -/
def sortInsert (le : α → α → Bool) (x : α) : List α → List α
  | [] => [x]
  | y :: ys => if le x y then x :: y :: ys else y :: sortInsert le x ys

/-- Python's `list.sort` is a stable sort, and the output of a stable sort
is uniquely determined by the comparator, so stable insertion sort models
it exactly; `le a b` means "`a` may come no later than `b`" and must hold
on ties. -/
def stableSort (le : α → α → Bool) : List α → List α
  | [] => []
  | x :: xs => sortInsert le x (stableSort le xs)

/-- `key=lambda x: x[1], reverse=True`: stable descending by second
component. -/
def sortBySndDesc (l : List (α × ℚ)) : List (α × ℚ) :=
  stableSort (fun a b => decide (b.2 ≤ a.2)) l

/-- Same ordering with `Nat` frequencies (`corrections.sort`). -/
def sortByFreqDesc (l : List (List Char × Nat)) : List (List Char × Nat) :=
  stableSort (fun a b => decide (b.2 ≤ a.2)) l

/-! ## SpellChecker -/

structure SpellChecker where
  trie_root : Trie
  error_model : ErrorModel
  corrections_limit : Nat
  max_nodes_to_go : Nat
  weight_threshold_to_go : ℚ
  ignore_suffix_len : Nat

/-- `_get_corrections(node, word, pos, done_corrections)`, recursing on the
portion of the word still to match (`rest = word[pos:]`); `prev` is
`word[pos - 1]` (`none` at the start).  The source's suffix-protection test
`pos >= len(word) - ignore_suffix_len` is written as the equivalent
`len(rest) ≤ ignore_suffix_len` (both say `ignore_suffix_len ≥ len(word) - pos`,
and here `len(rest) = len(word) - pos`). -/
def SpellChecker.getCorrectionsGo (sc : SpellChecker) :
    Trie → List Char → Option Char → Nat → List (List Char × Nat)
  | node, [], _, _ =>
      match dictGet node.children Trie.END_MARKER with
      | some terminal_node => [(terminal_node.word, terminal_node.freq)]
      | none => []
  | node, wc :: rest, prev, done =>
      let letters_all := node.children.filterMap (fun p =>
        if p.1 = Trie.END_MARKER then none
        else some (p.1, sc.error_model.get_weight_of_error (some wc) (some p.1) prev))
      let max_weight := letters_all.foldl (fun acc lw => max acc lw.2) 0
      if letters_all.isEmpty then []
      else
        let letters_to_go := ((sortBySndDesc letters_all).take sc.max_nodes_to_go).filter
          (fun lw => sc.weight_threshold_to_go * max_weight ≤ lw.2)
        (letters_to_go.map (fun lw =>
          let letter := lw.1
          if letter ≠ wc ∧ rest.length + 1 ≤ sc.ignore_suffix_len then []
          else
            let new_corrections_cnt := done + (if letter ≠ wc then 1 else 0)
            if new_corrections_cnt ≤ sc.corrections_limit then
              sc.getCorrectionsGo ((dictGet node.children letter).getD Trie.new)
                rest (some wc) new_corrections_cnt
            else [])).flatten

/-- `_get_corrections(node, word)` with default `pos = 0`, `done = 0`. -/
def SpellChecker.get_corrections (sc : SpellChecker) (node : Trie)
    (word : List Char) : List (List Char × Nat) :=
  sc.getCorrectionsGo node word none 0

def SpellChecker.correct_spelling (sc : SpellChecker) (word : List Char) : List Char :=
  let corrections := sortByFreqDesc (sc.get_corrections sc.trie_root word)
  match corrections with
  | [] => word
  | (best, best_freq) :: _ =>
      match dictGet sc.trie_root.vocabulary word with
      | some f => if best_freq < 5 * f then word else best
      | none => best

/-- Positionwise mismatch count between two equal-length words (extra
characters of the longer one are not counted). -/
def diffCount : List Char → List Char → Nat
  | [], _ => 0
  | _, [] => 0
  | x :: xs, y :: ys => (if x = y then 0 else 1) + diffCount xs ys

/-- The value a Python dict holds after a sequence of assignments:
the last one for the key. -/
def lastEntry (ws : List (List Char × Nat)) (w : List Char) : Option Nat :=
  (ws.reverse.find? (fun p => p.1 = w)).map (fun p => p.2)

/-! ## Association-list lemmas -/

theorem dictGet_nil [DecidableEq α] (k : α) : dictGet ([] : List (α × β)) k = none := rfl

theorem dictGet_cons [DecidableEq α] (p : α × β) (d : List (α × β)) (k : α) :
    dictGet (p :: d) k = if p.1 = k then some p.2 else dictGet d k := by
  by_cases h : p.1 = k <;> simp [dictGet, List.find?, h]

theorem dictSet_cons [DecidableEq α] (p : α × β) (d : List (α × β)) (k : α) (v : β) :
    dictSet (p :: d) k v = if p.1 = k then (p.1, v) :: d else p :: dictSet d k v := by
  rcases p with ⟨a, b⟩
  by_cases h : a = k <;> simp [dictSet, h]

theorem dictGet_dictSet_self [DecidableEq α] (d : List (α × β)) (k : α) (v : β) :
    dictGet (dictSet d k v) k = some v := by
  induction d with
  | nil => simp [dictSet, dictGet_cons]
  | cons p rest ih =>
      rw [dictSet_cons]
      by_cases h : p.1 = k
      · simp [h, dictGet_cons]
      · rw [if_neg h, dictGet_cons, if_neg h]
        exact ih

theorem dictGet_dictSet_ne [DecidableEq α] (d : List (α × β)) (k k' : α) (v : β)
    (h : k' ≠ k) : dictGet (dictSet d k v) k' = dictGet d k' := by
  induction d with
  | nil => simp [dictSet, dictGet_cons, dictGet_nil, Ne.symm h]
  | cons p rest ih =>
      rw [dictSet_cons]
      by_cases hp : p.1 = k
      · rw [if_pos hp, dictGet_cons, dictGet_cons]
        simp [hp, Ne.symm h]
      · rw [if_neg hp, dictGet_cons, dictGet_cons]
        by_cases hk : p.1 = k' <;> simp [hk, ih]

theorem dictIncr_cons [DecidableEq α] (p : α × Nat) (d : List (α × Nat)) (k : α) :
    dictIncr (p :: d) k = if p.1 = k then (p.1, p.2 + 1) :: d else p :: dictIncr d k := by
  rcases p with ⟨a, b⟩
  by_cases h : a = k <;> simp [dictIncr, h]

theorem dictGet_dictIncr_self [DecidableEq α] (d : List (α × Nat)) (k : α) :
    dictGet (dictIncr d k) k = some ((dictGet d k).getD 0 + 1) := by
  induction d with
  | nil => simp [dictIncr, dictGet_cons, dictGet_nil]
  | cons p rest ih =>
      rw [dictIncr_cons]
      by_cases h : p.1 = k
      · simp [h, dictGet_cons]
      · rw [if_neg h, dictGet_cons, if_neg h, dictGet_cons, if_neg h]
        exact ih

theorem dictGet_dictIncr_ne [DecidableEq α] (d : List (α × Nat)) (k k' : α)
    (h : k' ≠ k) : dictGet (dictIncr d k) k' = dictGet d k' := by
  induction d with
  | nil => simp [dictIncr, dictGet_cons, dictGet_nil, Ne.symm h]
  | cons p rest ih =>
      rw [dictIncr_cons]
      by_cases hp : p.1 = k
      · rw [if_pos hp, dictGet_cons, dictGet_cons]
        simp [hp, Ne.symm h]
      · rw [if_neg hp, dictGet_cons, dictGet_cons]
        by_cases hk : p.1 = k' <;> simp [hk, ih]

/-! ## Stable-sort lemmas -/

theorem mem_sortInsert (le : α → α → Bool) (x a : α) (l : List α) :
    a ∈ sortInsert le x l ↔ a = x ∨ a ∈ l := by
  induction l with
  | nil => simp [sortInsert]
  | cons y ys ih =>
      by_cases h : le x y
      · simp [sortInsert, h]
      · simp [sortInsert, h, ih]
        tauto

theorem mem_stableSort (le : α → α → Bool) (a : α) (l : List α) :
    a ∈ stableSort le l ↔ a ∈ l := by
  induction l with
  | nil => simp [stableSort]
  | cons x xs ih => simp [stableSort, mem_sortInsert, ih]

theorem stableSort_eq_nil_iff (le : α → α → Bool) (l : List α) :
    stableSort le l = [] ↔ l = [] := by
  cases l with
  | nil => simp [stableSort]
  | cons x xs =>
      simp only [stableSort]
      constructor
      · intro h
        have : x ∈ sortInsert le x (stableSort le xs) := by
          rw [mem_sortInsert]
          left; rfl
        rw [h] at this
        exact absurd this (List.not_mem_nil x)
      · intro h
        exact absurd h (List.cons_ne_nil x xs)

/-- The head of the frequency-descending sort attains the maximum frequency. -/
theorem stableSort_freq_head_max (l : List (List Char × Nat)) (b : List Char × Nat)
    (t : List (List Char × Nat))
    (h : stableSort (fun a b => decide (b.2 ≤ a.2)) l = b :: t) :
    ∀ p ∈ l, p.2 ≤ b.2 := by
  induction l generalizing b t with
  | nil => simp [stableSort] at h
  | cons x xs ih =>
      simp only [stableSort] at h
      cases hxs : stableSort (fun a b => decide (b.2 ≤ a.2)) xs with
      | nil =>
          rw [hxs] at h
          simp only [sortInsert] at h
          cases h
          have hnil : xs = [] := (stableSort_eq_nil_iff _ xs).mp hxs
          subst hnil
          simp
      | cons y ys =>
          rw [hxs] at h
          simp only [sortInsert] at h
          by_cases hle : y.2 ≤ x.2
          · rw [if_pos (by simpa using hle)] at h
            rw [List.cons.injEq] at h
            obtain ⟨hb, ht⟩ := h
            subst hb
            intro p hp
            rcases List.mem_cons.mp hp with hpx | hpxs
            · subst hpx; exact le_refl _
            · exact le_trans (ih y ys hxs p hpxs) hle
          · rw [if_neg (by simpa using hle)] at h
            rw [List.cons.injEq] at h
            obtain ⟨hb, ht⟩ := h
            subst hb
            intro p hp
            rcases List.mem_cons.mp hp with hpx | hpxs
            · subst hpx; exact Nat.le_of_lt (Nat.lt_of_not_le hle)
            · exact ih y ys hxs p hpxs

theorem sortByFreqDesc_head_max (l : List (List Char × Nat)) (b : List Char × Nat)
    (t : List (List Char × Nat)) (h : sortByFreqDesc l = b :: t) :
    ∀ p ∈ l, p.2 ≤ b.2 := by
  exact stableSort_freq_head_max l b t (by simpa [sortByFreqDesc] using h)

/-! ## Trie well-formedness -/

/-- Well-formedness of the subtrie at prefix `pre` of a trie whose root's
flat vocabulary map is `voc`: a terminal-marker child is exactly the node a
single `add_word` insertion writes (`Trie(True, pre, f)` with no children),
so its word spells the path, and the flat map agrees with its frequency;
every other child is recursively well-formed one character deeper. -/
inductive TrieOK (voc : List (List Char × Nat)) : List Char → Trie → Prop
  | intro (pre : List Char) (node : Trie)
      (hterm : ∀ t', dictGet node.children Trie.END_MARKER = some t' →
         ∃ f, t' = Trie.mk true pre f [] [] ∧ dictGet voc pre = some f)
      (hchild : ∀ c child, c ≠ Trie.END_MARKER →
         dictGet node.children c = some child → TrieOK voc (pre ++ [c]) child) :
      TrieOK voc pre node

theorem TrieOK.term {voc : List (List Char × Nat)} {pre : List Char} {node : Trie}
    (h : TrieOK voc pre node) :
    ∀ t', dictGet node.children Trie.END_MARKER = some t' →
      ∃ f, t' = Trie.mk true pre f [] [] ∧ dictGet voc pre = some f := by
  cases h with
  | intro _ _ hterm _ => exact hterm

theorem TrieOK.child {voc : List (List Char × Nat)} {pre : List Char} {node : Trie}
    (h : TrieOK voc pre node) :
    ∀ c child, c ≠ Trie.END_MARKER →
      dictGet node.children c = some child → TrieOK voc (pre ++ [c]) child := by
  cases h with
  | intro _ _ _ hchild => exact hchild

theorem trieOK_of_children_eq {voc : List (List Char × Nat)} {pre : List Char}
    {t t' : Trie} (hc : t'.children = t.children) (h : TrieOK voc pre t) :
    TrieOK voc pre t' := by
  cases h with
  | intro _ _ hterm hchild =>
      constructor
      · intro u hu
        exact hterm u (by rw [← hc]; exact hu)
      · intro c child hne hcc
        exact hchild c child hne (by rw [← hc]; exact hcc)

theorem trieOK_new (voc : List (List Char × Nat)) (pre : List Char) :
    TrieOK voc pre Trie.new := by
  constructor
  · intro t' ht
    simp [Trie.new, Trie.children, dictGet_nil] at ht
  · intro c child _ hcc
    simp [Trie.new, Trie.children, dictGet_nil] at hcc

/-- Replacing the vocabulary table with one that agrees on every extension
of `pre` preserves well-formedness below `pre`. -/
theorem trieOK_mono {voc voc' : List (List Char × Nat)} {pre : List Char} {t : Trie}
    (h : TrieOK voc pre t)
    (hagree : ∀ q, pre <+: q → dictGet voc' q = dictGet voc q) :
    TrieOK voc' pre t := by
  induction h with
  | intro pre node hterm hchild ih =>
      constructor
      · intro t' ht
        obtain ⟨f, ht', hv⟩ := hterm t' ht
        exact ⟨f, ht', by rw [hagree pre (List.prefix_rfl)]; exact hv⟩
      · intro c child hc hcc
        refine ih c child hc hcc ?_
        intro q hq
        exact hagree q ((List.prefix_append pre [c]).trans hq)

theorem Trie.children_withChildren (t : Trie) (cs : List (Char × Trie)) :
    (t.withChildren cs).children = cs := by
  cases t; rfl

theorem Trie.vocabulary_withChildren (t : Trie) (cs : List (Char × Trie)) :
    (t.withChildren cs).vocabulary = t.vocabulary := by
  cases t; rfl

theorem Trie.children_withVocabulary (t : Trie) (v : List (List Char × Nat)) :
    (t.withVocabulary v).children = t.children := by
  cases t; rfl

theorem Trie.vocabulary_withVocabulary (t : Trie) (v : List (List Char × Nat)) :
    (t.withVocabulary v).vocabulary = v := by
  cases t; rfl

theorem Trie.vocabulary_addWordGo (t : Trie) (w : List Char) (f : Nat)
    (rest : List Char) : (t.addWordGo w f rest).vocabulary = t.vocabulary := by
  cases rest with
  | nil => simp [Trie.addWordGo, Trie.vocabulary_withChildren]
  | cons c cs => simp [Trie.addWordGo, Trie.vocabulary_withChildren]

theorem Trie.vocabulary_add_word (t : Trie) (w : List Char) (f : Nat) :
    (t.add_word w f).vocabulary = dictSet t.vocabulary w f := by
  rw [Trie.add_word, Trie.vocabulary_addWordGo, Trie.vocabulary_withVocabulary]

/-- Key preservation step: `addWordGo` on a well-formed subtrie at `pre`
with `pre ++ rest = w` yields a subtrie well-formed for the updated
vocabulary table. -/
theorem addWordGo_TrieOK {voc : List (List Char × Nat)} (w : List Char) (f : Nat) :
    ∀ (rest pre : List Char) (t : Trie), Trie.END_MARKER ∉ rest →
      pre ++ rest = w → TrieOK voc pre t →
      TrieOK (dictSet voc w f) pre (t.addWordGo w f rest) := by
  intro rest
  induction rest with
  | nil =>
      intro pre t _ hsplit hok
      rw [List.append_nil] at hsplit
      subst hsplit
      rw [Trie.addWordGo]
      constructor
      · intro t' ht
        rw [Trie.children_withChildren, dictGet_dictSet_self] at ht
        cases ht
        exact ⟨f, rfl, dictGet_dictSet_self voc pre f⟩
      · intro c child hne hcc
        rw [Trie.children_withChildren, dictGet_dictSet_ne _ _ _ _ hne] at hcc
        refine trieOK_mono (hok.child c child hne hcc) ?_
        intro q hq
        have hlen : pre.length + 1 ≤ q.length := by
          have := hq.length_le
          simpa using this
        have hne' : q ≠ pre := by
          intro hqe
          subst hqe
          omega
        exact dictGet_dictSet_ne voc pre q f hne'
  | cons c rest' ih =>
      intro pre t hmark hsplit hok
      have hcne : c ≠ Trie.END_MARKER := by
        intro hce
        exact hmark (hce ▸ List.mem_cons_self c rest')
      have hmark' : Trie.END_MARKER ∉ rest' := fun hm => hmark (List.mem_cons_of_mem c hm)
      rw [Trie.addWordGo]
      constructor
      · intro t' ht
        rw [Trie.children_withChildren,
            dictGet_dictSet_ne _ _ _ _ (fun he => hcne he.symm)] at ht
        obtain ⟨f0, ht', hv⟩ := hok.term t' ht
        refine ⟨f0, ht', ?_⟩
        have hne' : pre ≠ w := by
          intro he
          have : w.length = pre.length + (rest'.length + 1) := by
            rw [← hsplit]; simp
          rw [← he] at this
          omega
        rw [dictGet_dictSet_ne voc w pre f hne']
        exact hv
      · intro c'' child hne hcc
        rw [Trie.children_withChildren] at hcc
        by_cases hc : c'' = c
        · subst hc
          rw [dictGet_dictSet_self] at hcc
          cases hcc
          have hbase : TrieOK voc (pre ++ [c'']) ((dictGet t.children c'').getD Trie.new) := by
            cases hget : dictGet t.children c'' with
            | some ch => simpa [hget] using hok.child c'' ch hne hget
            | none => simpa [hget] using trieOK_new voc (pre ++ [c''])
          have hsplit' : (pre ++ [c'']) ++ rest' = w := by
            rw [← hsplit]; simp
          exact ih (pre ++ [c'']) _ hmark' hsplit' hbase
        · rw [dictGet_dictSet_ne _ _ _ _ hc] at hcc
          refine trieOK_mono (hok.child c'' child hne hcc) ?_
          intro q hq
          have hne' : q ≠ w := by
            intro hqe
            subst hqe
            obtain ⟨k, hk⟩ := hq
            rw [← hsplit] at hk
            rw [List.append_assoc] at hk
            have := List.append_cancel_left hk
            cases this
            exact hc rfl
          exact dictGet_dictSet_ne voc w q f hne'

theorem add_word_TrieOK (t : Trie) (w : List Char) (f : Nat)
    (hw : Trie.END_MARKER ∉ w) (hok : TrieOK t.vocabulary [] t) :
    TrieOK (t.add_word w f).vocabulary [] (t.add_word w f) := by
  rw [Trie.add_word, Trie.vocabulary_addWordGo, Trie.vocabulary_withVocabulary]
  refine addWordGo_TrieOK w f w [] _ hw rfl ?_
  exact trieOK_of_children_eq (Trie.children_withVocabulary t _) hok

theorem buildTrie_TrieOK (ws : List (List Char × Nat))
    (hws : ∀ p ∈ ws, Trie.END_MARKER ∉ p.1) :
    TrieOK (buildTrie ws).vocabulary [] (buildTrie ws) := by
  rw [buildTrie]
  have main : ∀ (l : List (List Char × Nat)) (t : Trie),
      (∀ p ∈ l, Trie.END_MARKER ∉ p.1) → TrieOK t.vocabulary [] t →
      TrieOK ((l.foldl (fun t p => t.add_word p.1 p.2) t).vocabulary) []
        (l.foldl (fun t p => t.add_word p.1 p.2) t) := by
    intro l
    induction l with
    | nil => intro t _ hok; simpa using hok
    | cons p rest ihl =>
        intro t hl hok
        have hp : Trie.END_MARKER ∉ p.1 := hl p (List.mem_cons_self p rest)
        have hrest : ∀ q ∈ rest, Trie.END_MARKER ∉ q.1 :=
          fun q hq => hl q (List.mem_cons_of_mem p hq)
        simpa using ihl (t.add_word p.1 p.2) hrest (add_word_TrieOK t p.1 p.2 hp hok)
  have hnew : TrieOK (Trie.new).vocabulary [] Trie.new := trieOK_new _ _
  exact main ws Trie.new hws hnew

/-! ## Soundness of the pruned search -/

theorem diffCount_nil_nil : diffCount [] [] = 0 := rfl

theorem diffCount_cons (x y : Char) (xs ys : List Char) :
    diffCount (x :: xs) (y :: ys) = (if x = y then 0 else 1) + diffCount xs ys := rfl

/-- Every candidate emitted by `_get_corrections` from a well-formed subtrie
at prefix `pre` extends `pre` by a path of the same length as the remaining
word, is recorded in the root flat vocabulary map with the emitted
frequency, stays within the corrections budget, and agrees with the query
on the protected suffix. -/
theorem getCorrectionsGo_sound {voc : List (List Char × Nat)} (sc : SpellChecker) :
    ∀ (remaining : List Char) (node : Trie) (pre : List Char) (prev : Option Char)
      (done : Nat), TrieOK voc pre node → done ≤ sc.corrections_limit →
      ∀ cw cf, (cw, cf) ∈ sc.getCorrectionsGo node remaining prev done →
      ∃ path, cw = pre ++ path ∧ path.length = remaining.length ∧
        dictGet voc cw = some cf ∧
        done + diffCount path remaining ≤ sc.corrections_limit ∧
        ∀ i, remaining.length ≤ i + sc.ignore_suffix_len →
          path.get? i = remaining.get? i := by
  intro remaining
  induction remaining with
  | nil =>
      intro node pre prev done hok hdone cw cf hmem
      rw [SpellChecker.getCorrectionsGo] at hmem
      cases hget : dictGet node.children Trie.END_MARKER with
      | none => rw [hget] at hmem; simp at hmem
      | some term =>
          rw [hget] at hmem
          simp only [List.mem_singleton, Prod.mk.injEq] at hmem
          obtain ⟨hcw, hcf⟩ := hmem
          obtain ⟨f, hterm, hv⟩ := hok.term term hget
          subst hterm
          refine ⟨[], ?_, rfl, ?_, ?_, ?_⟩
          · rw [hcw]; simp [Trie.word]
          · rw [hcw, hcf]
            simpa [Trie.word, Trie.freq] using hv
          · simpa [diffCount_nil_nil] using hdone
          · intro i _
            rfl
  | cons wc rest ih =>
      intro node pre prev done hok hdone cw cf hmem
      rw [SpellChecker.getCorrectionsGo] at hmem
      by_cases hempty : (node.children.filterMap (fun p =>
          if p.1 = Trie.END_MARKER then none
          else some (p.1,
            sc.error_model.get_weight_of_error (some wc) (some p.1) prev))).isEmpty
      · rw [if_pos hempty] at hmem
        simp at hmem
      · rw [if_neg hempty] at hmem
        rw [List.mem_flatten] at hmem
        obtain ⟨l', hl', hmem⟩ := hmem
        rw [List.mem_map] at hl'
        obtain ⟨lw, hlw, hfl⟩ := hl'
        subst hfl
        have hlw_all : lw ∈ node.children.filterMap (fun p =>
            if p.1 = Trie.END_MARKER then none
            else some (p.1,
              sc.error_model.get_weight_of_error (some wc) (some p.1) prev)) := by
          have h1 := (List.mem_filter.mp hlw).1
          have h2 := List.mem_of_mem_take h1
          exact (mem_stableSort _ _ _).mp h2
        have hlet : lw.1 ≠ Trie.END_MARKER := by
          rw [List.mem_filterMap] at hlw_all
          obtain ⟨p, _, hfp⟩ := hlw_all
          by_cases hpe : p.1 = Trie.END_MARKER
          · rw [if_pos hpe] at hfp; cases hfp
          · rw [if_neg hpe] at hfp
            cases hfp
            exact hpe
        by_cases hskip : lw.1 ≠ wc ∧ rest.length + 1 ≤ sc.ignore_suffix_len
        · rw [if_pos hskip] at hmem
          simp at hmem
        · rw [if_neg hskip] at hmem
          by_cases hcnt : done + (if lw.1 ≠ wc then 1 else 0) ≤ sc.corrections_limit
          · rw [if_pos hcnt] at hmem
            have hchild : TrieOK voc (pre ++ [lw.1])
                ((dictGet node.children lw.1).getD Trie.new) := by
              cases hget : dictGet node.children lw.1 with
              | some ch => simpa using hok.child lw.1 ch hlet hget
              | none => simpa using trieOK_new voc (pre ++ [lw.1])
            obtain ⟨path, hcw, hlen, hvoc, hdiff, hsuffix⟩ :=
              ih _ _ _ _ hchild hcnt cw cf hmem
            refine ⟨lw.1 :: path, ?_, ?_, hvoc, ?_, ?_⟩
            · rw [hcw, List.append_assoc]; rfl
            · simp [hlen]
            · rw [diffCount_cons]
              have hind : (if lw.1 = wc then 0 else 1) = (if lw.1 ≠ wc then 1 else 0) := by
                by_cases h : lw.1 = wc <;> simp [h]
              rw [hind]
              omega
            · intro i hi
              cases i with
              | zero =>
                  have heq : lw.1 = wc := by
                    by_contra hne
                    exact hskip ⟨hne, by simpa using hi⟩
                  simp [heq]
              | succ j =>
                  have : rest.length ≤ j + sc.ignore_suffix_len := by
                    simpa [Nat.succ_add] using hi
                  simpa using hsuffix j this
          · rw [if_neg hcnt] at hmem
            simp at hmem

/-! ## The terminal node reached by spelling a word -/

/-- The terminal-marker child at the end of the path spelling `w`, when both
exist: the unique terminal witness for `w` in the trie. -/
def Trie.findNodeTerm (t : Trie) (w : List Char) : Option Trie :=
  (t.findNode w).bind (fun n => dictGet n.children Trie.END_MARKER)

theorem findNodeTerm_new (q : List Char) : Trie.findNodeTerm Trie.new q = none := by
  cases q with
  | nil => rfl
  | cons c rest =>
      simp [Trie.findNodeTerm, Trie.findNode, Trie.new, Trie.children, dictGet_nil]

theorem findNodeTerm_withVocabulary (t : Trie) (v : List (List Char × Nat))
    (q : List Char) : (t.withVocabulary v).findNodeTerm q = t.findNodeTerm q := by
  cases q with
  | nil =>
      simp [Trie.findNodeTerm, Trie.findNode, Trie.children_withVocabulary]
  | cons c rest =>
      simp [Trie.findNodeTerm, Trie.findNode, Trie.children_withVocabulary]

/-- `addWordGo` writes exactly the fresh terminal node at the end of the
inserted suffix. -/
theorem findNodeTerm_addWordGo_self (w : List Char) (f : Nat) :
    ∀ (rest : List Char) (t : Trie),
      (t.addWordGo w f rest).findNodeTerm rest = some (Trie.mk true w f [] []) := by
  intro rest
  induction rest with
  | nil =>
      intro t
      simp [Trie.addWordGo, Trie.findNodeTerm, Trie.findNode,
        Trie.children_withChildren, dictGet_dictSet_self]
  | cons c rest' ih =>
      intro t
      simp only [Trie.addWordGo, Trie.findNodeTerm, Trie.findNode,
        Trie.children_withChildren, dictGet_dictSet_self]
      exact ih _

/-- `addWordGo` along `rest` leaves the terminal witness of any other
marker-free path unchanged. -/
theorem findNodeTerm_addWordGo_ne (w : List Char) (f : Nat) :
    ∀ (rest q : List Char) (t : Trie), Trie.END_MARKER ∉ rest →
      Trie.END_MARKER ∉ q → q ≠ rest →
      (t.addWordGo w f rest).findNodeTerm q = t.findNodeTerm q := by
  intro rest
  induction rest with
  | nil =>
      intro q t _ hq hne
      cases q with
      | nil => exact absurd rfl hne
      | cons c q' =>
          have hc : c ≠ Trie.END_MARKER := fun h => hq (h ▸ List.mem_cons_self c q')
          simp only [Trie.addWordGo, Trie.findNodeTerm, Trie.findNode,
            Trie.children_withChildren]
          rw [dictGet_dictSet_ne _ _ _ _ hc]
  | cons c rest' ih =>
      intro q t hrest hq hne
      have hcm : c ≠ Trie.END_MARKER := fun h => hrest (h ▸ List.mem_cons_self c rest')
      have hrest' : Trie.END_MARKER ∉ rest' :=
        fun h => hrest (List.mem_cons_of_mem c h)
      cases q with
      | nil =>
          simp only [Trie.addWordGo, Trie.findNodeTerm, Trie.findNode,
            Trie.children_withChildren, Option.some_bind]
          rw [dictGet_dictSet_ne _ _ _ _ (fun h => hcm h.symm)]
      | cons d q' =>
          have hd : d ≠ Trie.END_MARKER := fun h => hq (h ▸ List.mem_cons_self d q')
          have hq' : Trie.END_MARKER ∉ q' := fun h => hq (List.mem_cons_of_mem d h)
          by_cases hdc : d = c
          · subst hdc
            have hq'ne : q' ≠ rest' := fun h => hne (h ▸ rfl)
            simp only [Trie.addWordGo, Trie.findNodeTerm, Trie.findNode,
              Trie.children_withChildren, dictGet_dictSet_self]
            cases hget : dictGet t.children d with
            | some ch =>
                have := ih q' ((dictGet t.children d).getD Trie.new) hrest' hq' hq'ne
                rw [hget] at this
                simpa [hget, Trie.findNodeTerm] using this
            | none =>
                have := ih q' ((dictGet t.children d).getD Trie.new) hrest' hq' hq'ne
                rw [hget] at this
                simp only [Option.getD_none] at this
                rw [findNodeTerm_new] at this
                simpa [hget, Trie.findNodeTerm] using this
          · simp only [Trie.addWordGo, Trie.findNodeTerm, Trie.findNode,
              Trie.children_withChildren]
            rw [dictGet_dictSet_ne _ _ _ _ hdc]

theorem findNodeTerm_add_word_self (t : Trie) (w : List Char) (f : Nat) :
    (t.add_word w f).findNodeTerm w = some (Trie.mk true w f [] []) := by
  rw [Trie.add_word]
  exact findNodeTerm_addWordGo_self w f w _

theorem findNodeTerm_add_word_ne (t : Trie) (w q : List Char) (f : Nat)
    (hw : Trie.END_MARKER ∉ w) (hq : Trie.END_MARKER ∉ q) (hne : q ≠ w) :
    (t.add_word w f).findNodeTerm q = t.findNodeTerm q := by
  rw [Trie.add_word]
  rw [findNodeTerm_addWordGo_ne w f w q _ hw hq hne]
  exact findNodeTerm_withVocabulary t _ q

theorem findNode_nil (t : Trie) : t.findNode [] = some t := rfl

theorem findNode_cons_some (t child : Trie) (c : Char) (rest : List Char)
    (h : dictGet t.children c = some child) :
    t.findNode (c :: rest) = child.findNode rest := by
  simp [Trie.findNode, h]

theorem findNode_cons_none (t : Trie) (c : Char) (rest : List Char)
    (h : dictGet t.children c = none) :
    t.findNode (c :: rest) = none := by
  simp [Trie.findNode, h]

/-- In a well-formed trie, any terminal-marker child found at the end of a
path spells exactly that path, carries a frequency the root flat map agrees
on, and is a fresh single-insertion node. -/
theorem findNode_term_spells {voc : List (List Char × Nat)} :
    ∀ (q : List Char) (pre : List Char) (t : Trie), TrieOK voc pre t →
      ∀ n term, t.findNode q = some n →
        dictGet n.children Trie.END_MARKER = some term →
        ∃ f, term = Trie.mk true (pre ++ q) f [] [] ∧
          dictGet voc (pre ++ q) = some f := by
  intro q
  induction q with
  | nil =>
      intro pre t hok n term hfind hterm
      rw [findNode_nil] at hfind
      cases hfind
      simpa using hok.term term hterm
  | cons c q' ih =>
      intro pre t hok n term hfind hterm
      cases hget : dictGet t.children c with
      | none => rw [findNode_cons_none _ _ _ hget] at hfind; cases hfind
      | some child =>
          rw [findNode_cons_some _ _ _ _ hget] at hfind
          by_cases hc : c = Trie.END_MARKER
          · subst hc
            obtain ⟨f, hchild, _⟩ := hok.term child hget
            subst hchild
            cases q' with
            | nil =>
                rw [findNode_nil] at hfind
                cases hfind
                simp [Trie.children, dictGet_nil] at hterm
            | cons d q'' =>
                rw [findNode_cons_none _ _ _
                  (by simp [Trie.children, dictGet_nil])] at hfind
                cases hfind
          · have hchild := hok.child c child hc hget
            obtain ⟨f, hfw, hv⟩ := ih (pre ++ [c]) child hchild n term hfind hterm
            exact ⟨f, by simpa using hfw, by simpa using hv⟩

theorem buildTrie_append_singleton (l : List (List Char × Nat)) (p : List Char × Nat) :
    buildTrie (l ++ [p]) = (buildTrie l).add_word p.1 p.2 := by
  simp [buildTrie, List.foldl_append]

theorem lastEntry_append_singleton (l : List (List Char × Nat)) (p : List Char × Nat)
    (w : List Char) :
    lastEntry (l ++ [p]) w = if p.1 = w then some p.2 else lastEntry l w := by
  by_cases h : p.1 = w <;> simp [lastEntry, List.find?, h]

/-- After building the trie, every word whose last recorded frequency is `f`
has its fresh single-insertion terminal at the end of its path and the flat
map records `f` for it. -/
theorem buildTrie_findNodeTerm (ws : List (List Char × Nat))
    (hws : ∀ p ∈ ws, Trie.END_MARKER ∉ p.1) :
    ∀ w f, Trie.END_MARKER ∉ w → lastEntry ws w = some f →
      (buildTrie ws).findNodeTerm w = some (Trie.mk true w f [] []) ∧
      dictGet (buildTrie ws).vocabulary w = some f := by
  induction ws using List.reverseRecOn with
  | nil =>
      intro w f _ hlast
      simp [lastEntry] at hlast
  | append_singleton l p ihl =>
      intro w f hw hlast
      have hp : Trie.END_MARKER ∉ p.1 := hws p (by simp)
      have hl : ∀ q ∈ l, Trie.END_MARKER ∉ q.1 := fun q hq => hws q (by simp [hq])
      rw [lastEntry_append_singleton] at hlast
      rw [buildTrie_append_singleton]
      by_cases hpw : p.1 = w
      · rw [if_pos hpw] at hlast
        cases hlast
        subst hpw
        constructor
        · exact findNodeTerm_add_word_self _ _ _
        · rw [Trie.vocabulary_add_word]
          exact dictGet_dictSet_self _ _ _
      · rw [if_neg hpw] at hlast
        obtain ⟨h1, h2⟩ := ihl hl w f hw hlast
        constructor
        · rw [findNodeTerm_add_word_ne _ _ _ _ hp hw (fun h => hpw h.symm)]
          exact h1
        · rw [Trie.vocabulary_add_word,
            dictGet_dictSet_ne _ _ _ _ (fun h => hpw h.symm)]
          exact h2

/-! ## Training on identical words -/

theorem editopsFuel_self (w : List Char) :
    ∀ (fuel oi ni : Nat), w.length ≤ fuel →
      editopsFuel fuel w w oi ni = [] := by
  induction w with
  | nil =>
      intro fuel oi ni _
      cases fuel with
      | zero => rfl
      | succ f => rfl
  | cons x xs ih =>
      intro fuel oi ni hf
      cases fuel with
      | zero => simp at hf
      | succ f =>
          rw [editopsFuel, if_pos rfl]
          exact ih f (oi + 1) (ni + 1) (by simpa using hf)

theorem editops_self (w : List Char) : editops w w = [] := by
  rw [editops]
  exact editopsFuel_self w _ 0 0 (by omega)

theorem update_models_zero (m : ErrorModel) (k : OpType) (o n c : Option Char) :
    (m.update_models k o n c).zero_level = dictIncr m.zero_level k := rfl

theorem update_models_first (m : ErrorModel) (k : OpType) (o n c : Option Char) :
    (m.update_models k o n c).first_level = dictIncr m.first_level (EditOp o n none) := rfl

theorem update_models_second (m : ErrorModel) (k : OpType) (o n c : Option Char) :
    (m.update_models k o n c).second_level = dictIncr m.second_level (EditOp o n c) := rfl

/-- The loop over source positions untouched by any non-identity edit,
recording one identity replace per position. -/
def identityFold (m : ErrorModel) (w : List Char) (L : List Nat) : ErrorModel :=
  L.foldl (fun acc old_i => acc.update_models OpType.replace
    (w.get? old_i) (w.get? old_i) (ctxAt w old_i)) m

/-- Training on a pair of identical words is exactly the identity loop over
all source positions: the edit script is empty, so no position is marked as
a non-identity edit. -/
theorem add_spelling_correction_self (m : ErrorModel) (w : List Char) :
    m.add_spelling_correction w w = identityFold m w (List.range w.length) := by
  rw [ErrorModel.add_spelling_correction, editops_self]
  simp only [List.foldl_nil, identityFold]
  have hfun : (fun (acc : ErrorModel) (old_i : Nat) =>
      if old_i ∈ ([] : List Nat) then acc
      else acc.update_models OpType.replace (w.get? old_i) (w.get? old_i) (ctxAt w old_i)) =
      (fun (acc : ErrorModel) (old_i : Nat) =>
        acc.update_models OpType.replace (w.get? old_i) (w.get? old_i) (ctxAt w old_i)) := by
    funext acc old_i
    simp
  rw [hfun]

theorem identityFold_zero_replace (w : List Char) :
    ∀ (L : List Nat) (m : ErrorModel),
      (dictGet (identityFold m w L).zero_level OpType.replace).getD 0 =
      (dictGet m.zero_level OpType.replace).getD 0 + L.length := by
  intro L
  induction L with
  | nil => intro m; simp [identityFold]
  | cons i L' ih =>
      intro m
      rw [identityFold, List.foldl_cons]
      have := ih (m.update_models OpType.replace (w.get? i) (w.get? i) (ctxAt w i))
      rw [identityFold] at this
      rw [this, update_models_zero, dictGet_dictIncr_self]
      simp only [Option.getD_some, List.length_cons]
      omega

theorem identityFold_zero_untouched (w : List Char) (k : OpType)
    (hk : k ≠ OpType.replace) :
    ∀ (L : List Nat) (m : ErrorModel),
      dictGet (identityFold m w L).zero_level k = dictGet m.zero_level k := by
  intro L
  induction L with
  | nil => intro m; simp [identityFold]
  | cons i L' ih =>
      intro m
      rw [identityFold, List.foldl_cons]
      have := ih (m.update_models OpType.replace (w.get? i) (w.get? i) (ctxAt w i))
      rw [identityFold] at this
      rw [this, update_models_zero, dictGet_dictIncr_ne _ _ _ hk]

theorem identityFold_first_untouched (w : List Char) (op : EditOpClass) :
    ∀ (L : List Nat) (m : ErrorModel),
      (∀ i ∈ L, EditOp (w.get? i) (w.get? i) none ≠ op) →
      dictGet (identityFold m w L).first_level op = dictGet m.first_level op := by
  intro L
  induction L with
  | nil => intro m _; simp [identityFold]
  | cons i L' ih =>
      intro m hL
      rw [identityFold, List.foldl_cons]
      have hi : EditOp (w.get? i) (w.get? i) none ≠ op := hL i (by simp)
      have hL' : ∀ j ∈ L', EditOp (w.get? j) (w.get? j) none ≠ op :=
        fun j hj => hL j (by simp [hj])
      have := ih (m.update_models OpType.replace (w.get? i) (w.get? i) (ctxAt w i)) hL'
      rw [identityFold] at this
      rw [this, update_models_first, dictGet_dictIncr_ne _ _ _ (fun h => hi h.symm)]

theorem identityFold_second_untouched (w : List Char) (op : EditOpClass) :
    ∀ (L : List Nat) (m : ErrorModel),
      (∀ i ∈ L, EditOp (w.get? i) (w.get? i) (ctxAt w i) ≠ op) →
      dictGet (identityFold m w L).second_level op = dictGet m.second_level op := by
  intro L
  induction L with
  | nil => intro m _; simp [identityFold]
  | cons i L' ih =>
      intro m hL
      rw [identityFold, List.foldl_cons]
      have hi : EditOp (w.get? i) (w.get? i) (ctxAt w i) ≠ op := hL i (by simp)
      have hL' : ∀ j ∈ L', EditOp (w.get? j) (w.get? j) (ctxAt w j) ≠ op :=
        fun j hj => hL j (by simp [hj])
      have := ih (m.update_models OpType.replace (w.get? i) (w.get? i) (ctxAt w i)) hL'
      rw [identityFold] at this
      rw [this, update_models_second, dictGet_dictIncr_ne _ _ _ (fun h => hi h.symm)]

theorem identityFold_second_count (w : List Char) (op : EditOpClass) :
    ∀ (L : List Nat) (m : ErrorModel),
      (dictGet (identityFold m w L).second_level op).getD 0 =
      (dictGet m.second_level op).getD 0 +
        L.countP (fun i => decide (EditOp (w.get? i) (w.get? i) (ctxAt w i) = op)) := by
  intro L
  induction L with
  | nil => intro m; simp [identityFold]
  | cons i L' ih =>
      intro m
      rw [identityFold, List.foldl_cons]
      have := ih (m.update_models OpType.replace (w.get? i) (w.get? i) (ctxAt w i))
      rw [identityFold] at this
      rw [this, update_models_second]
      by_cases hkey : EditOp (w.get? i) (w.get? i) (ctxAt w i) = op
      · rw [hkey, dictGet_dictIncr_self, List.countP_cons,
          decide_eq_true hkey, if_pos rfl]
        simp only [Option.getD_some]
        omega
      · rw [dictGet_dictIncr_ne _ _ _ (fun h => hkey h.symm), List.countP_cons,
          decide_eq_false hkey, if_neg Bool.false_ne_true]
        omega

/-! ## Final-selection case analysis -/

theorem correct_spelling_sort_nil {sc : SpellChecker} {word : List Char}
    (h : sortByFreqDesc (sc.get_corrections sc.trie_root word) = []) :
    sc.correct_spelling word = word := by
  simp [SpellChecker.correct_spelling, h]

theorem correct_spelling_sort_cons {sc : SpellChecker} {word best : List Char}
    {bf : Nat} {t : List (List Char × Nat)}
    (h : sortByFreqDesc (sc.get_corrections sc.trie_root word) = (best, bf) :: t) :
    sc.correct_spelling word =
      (match dictGet sc.trie_root.vocabulary word with
       | some f => if bf < 5 * f then word else best
       | none => best) := by
  simp [SpellChecker.correct_spelling, h]

/-- The final selection of `correct_spelling`: either the search yields no
candidates and the input is returned, or some candidate attaining the
maximum frequency is chosen, the confidence gate returning the input
exactly as the source writes it. -/
theorem correct_spelling_cases (sc : SpellChecker) (word : List Char) :
    (sc.get_corrections sc.trie_root word = [] ∧ sc.correct_spelling word = word) ∨
    (∃ best bf, (best, bf) ∈ sc.get_corrections sc.trie_root word ∧
      (∀ p ∈ sc.get_corrections sc.trie_root word, p.2 ≤ bf) ∧
      ((∃ fw, dictGet sc.trie_root.vocabulary word = some fw ∧ bf < 5 * fw ∧
          sc.correct_spelling word = word) ∨
       ((∀ fw, dictGet sc.trie_root.vocabulary word = some fw → 5 * fw ≤ bf) ∧
          sc.correct_spelling word = best))) := by
  cases hsort : sortByFreqDesc (sc.get_corrections sc.trie_root word) with
  | nil =>
      left
      refine ⟨?_, correct_spelling_sort_nil hsort⟩
      exact (stableSort_eq_nil_iff _ _).mp (by simpa [sortByFreqDesc] using hsort)
  | cons hd tl =>
      right
      rcases hd with ⟨best, bf⟩
      have hmem : (best, bf) ∈ sc.get_corrections sc.trie_root word := by
        have : (best, bf) ∈ sortByFreqDesc (sc.get_corrections sc.trie_root word) := by
          rw [hsort]; exact List.mem_cons_self _ _
        simpa [sortByFreqDesc, mem_stableSort] using this
      have hmax := sortByFreqDesc_head_max _ _ _ hsort
      refine ⟨best, bf, hmem, hmax, ?_⟩
      have hres := correct_spelling_sort_cons hsort
      cases hv : dictGet sc.trie_root.vocabulary word with
      | some fw =>
          rw [hv] at hres
          have hres' : sc.correct_spelling word = if bf < 5 * fw then word else best := hres
          by_cases hlt : bf < 5 * fw
          · left
            exact ⟨fw, rfl, hlt, by rw [hres', if_pos hlt]⟩
          · right
            refine ⟨?_, by rw [hres', if_neg hlt]⟩
            intro fw' hfw'
            cases hfw'
            omega
      | none =>
          rw [hv] at hres
          have hres' : sc.correct_spelling word = best := hres
          right
          refine ⟨?_, hres'⟩
          intro fw' hfw'
          cases hfw'

/-! ## Concrete instances used by counterexamples and witnesses -/

/-- An untrained error model with the coefficients `main` uses. -/
def em0 : ErrorModel := ErrorModel.mk 0 (2/5) (3/5) [] [] []

def wsAB : List (List Char × Nat) := [(['a'], 1), (['b'], 5)]

/-- Suffix protection off, one substitution allowed. -/
def scAB : SpellChecker := SpellChecker.mk (buildTrie wsAB) em0 1 5 0 0

/-- Single-word vocabulary. -/
def scB : SpellChecker := SpellChecker.mk (buildTrie [(['a'], 1)]) em0 1 5 0 0

/-- Default suffix protection (`ignore_suffix_len = 3`). -/
def scC : SpellChecker := SpellChecker.mk (buildTrie wsAB) em0 1 5 0 3

theorem scAB_corrections :
    scAB.get_corrections scAB.trie_root ['a'] = [(['a'], 1), (['b'], 5)] := by
  iterate 8 (try simp [scAB, wsAB, em0, SpellChecker.get_corrections,
      SpellChecker.getCorrectionsGo, buildTrie, Trie.add_word, Trie.addWordGo, Trie.new,
      Trie.withChildren, Trie.withVocabulary, dictSet, dictGet, Trie.children, Trie.vocabulary,
      Trie.word, Trie.freq, Trie.END_MARKER, ErrorModel.get_weight_of_error, EditOp,
      sortBySndDesc, stableSort, sortInsert, List.find?, List.filterMap, List.foldl,
      List.get?, List.take, List.filter, List.map, List.flatten, List.isEmpty,
      Option.getD, Option.map]
             try norm_num)

theorem scAB_correct : scAB.correct_spelling ['a'] = ['b'] := by
  have hsort : sortByFreqDesc (scAB.get_corrections scAB.trie_root ['a']) =
      [(['b'], 5), (['a'], 1)] := by
    rw [scAB_corrections]; decide
  rw [correct_spelling_sort_cons hsort]
  have hv : dictGet scAB.trie_root.vocabulary ['a'] = some 1 := by decide
  rw [hv]
  norm_num

theorem scB_corrections :
    scB.get_corrections scB.trie_root ['a'] = [(['a'], 1)] := by
  iterate 8 (try simp [scB, em0, SpellChecker.get_corrections,
      SpellChecker.getCorrectionsGo, buildTrie, Trie.add_word, Trie.addWordGo, Trie.new,
      Trie.withChildren, Trie.withVocabulary, dictSet, dictGet, Trie.children, Trie.vocabulary,
      Trie.word, Trie.freq, Trie.END_MARKER, ErrorModel.get_weight_of_error, EditOp,
      sortBySndDesc, stableSort, sortInsert, List.find?, List.filterMap, List.foldl,
      List.get?, List.take, List.filter, List.map, List.flatten, List.isEmpty,
      Option.getD, Option.map]
             try norm_num)

theorem scC_corrections :
    scC.get_corrections scC.trie_root ['a'] = [(['a'], 1)] := by
  iterate 8 (try simp [scC, wsAB, em0, SpellChecker.get_corrections,
      SpellChecker.getCorrectionsGo, buildTrie, Trie.add_word, Trie.addWordGo, Trie.new,
      Trie.withChildren, Trie.withVocabulary, dictSet, dictGet, Trie.children, Trie.vocabulary,
      Trie.word, Trie.freq, Trie.END_MARKER, ErrorModel.get_weight_of_error, EditOp,
      sortBySndDesc, stableSort, sortInsert, List.find?, List.filterMap, List.foldl,
      List.get?, List.take, List.filter, List.map, List.flatten, List.isEmpty,
      Option.getD, Option.map]
             try norm_num)

/-! ## Claim theorems -/

/-- C1: for every query word, `correct_spelling` returns the word unchanged
when the recursive search from the root yields no candidates; otherwise it
selects a candidate with the highest frequency and returns the word
unchanged exactly when the word is present in the root's flat vocabulary
map and that best candidate's frequency is strictly below 5 times the
word's recorded frequency, returning the best candidate's word in all
other cases. -/
theorem C1_final_selection (sc : SpellChecker) (word : List Char) :
    (sc.get_corrections sc.trie_root word = [] ∧ sc.correct_spelling word = word) ∨
    (∃ best bf, (best, bf) ∈ sc.get_corrections sc.trie_root word ∧
      (∀ p ∈ sc.get_corrections sc.trie_root word, p.2 ≤ bf) ∧
      ((∃ fw, dictGet sc.trie_root.vocabulary word = some fw ∧ bf < 5 * fw ∧
          sc.correct_spelling word = word) ∨
       ((∀ fw, dictGet sc.trie_root.vocabulary word = some fw → 5 * fw ≤ bf) ∧
          sc.correct_spelling word = best))) :=
  correct_spelling_cases sc word

/-- C2 (amended): for every word in the root's flat vocabulary map, if
every candidate's frequency is *strictly less than* 5 times the word's
recorded frequency, `correct_spelling` returns the word unchanged.  (The
claim's "no candidate's frequency exceeds 5×freq(w)" — that is, `≤` — is
not enough: at exact equality the source's strict `<` gate fails and the
best candidate is returned.) -/
theorem C2_identity_on_vocab (sc : SpellChecker) (word : List Char) (fw : Nat)
    (hv : dictGet sc.trie_root.vocabulary word = some fw)
    (hlt : ∀ p ∈ sc.get_corrections sc.trie_root word, p.2 < 5 * fw) :
    sc.correct_spelling word = word := by
  rcases correct_spelling_cases sc word with ⟨_, h⟩ | ⟨best, bf, hmem, _, hgate⟩
  · exact h
  · rcases hgate with ⟨fw', _, _, h⟩ | ⟨hge, _⟩
    · exact h
    · exfalso
      have h1 := hge fw hv
      have h2 := hlt (best, bf) hmem
      omega

/-- C2 counterexample: with vocabulary `{a: 1, b: 5}` and no suffix
protection, the word `a` is in the vocabulary and no candidate frequency
exceeds `5 × freq(a) = 5`, yet the checker rewrites `a` to `b`: the
boundary case `best_freq = 5 × freq(w)` fails the strict gate. -/
theorem C2_counterexample :
    dictGet scAB.trie_root.vocabulary ['a'] = some 1 ∧
    (∀ p ∈ scAB.get_corrections scAB.trie_root ['a'], p.2 ≤ 5 * 1) ∧
    scAB.correct_spelling ['a'] ≠ ['a'] := by
  refine ⟨by decide, ?_, ?_⟩
  · rw [scAB_corrections]; decide
  · rw [scAB_correct]; decide

theorem C2_witness :
    dictGet scB.trie_root.vocabulary ['a'] = some 1 ∧
    (∀ p ∈ scB.get_corrections scB.trie_root ['a'], p.2 < 5 * 1) ∧
    scB.correct_spelling ['a'] = ['a'] :=
  ⟨by decide, by rw [scB_corrections]; decide,
    C2_identity_on_vocab scB ['a'] 1 (by decide) (by rw [scB_corrections]; decide)⟩

/-- C3: on a trie built only by `add_word` calls, every candidate emitted by
the search agrees with the query word at every position in its protected
suffix (`i ≥ len(word) − ignore_suffix_len`, stated as
`len(word) ≤ i + ignore_suffix_len`): non-identity substitutions there are
never taken, identity continuation is still allowed. -/
theorem C3_suffix_protection (sc : SpellChecker) (ws : List (List Char × Nat))
    (word : List Char) (hroot : sc.trie_root = buildTrie ws)
    (hws : ∀ p ∈ ws, Trie.END_MARKER ∉ p.1) :
    ∀ cw cf, (cw, cf) ∈ sc.get_corrections sc.trie_root word →
      ∀ i, word.length ≤ i + sc.ignore_suffix_len → cw.get? i = word.get? i := by
  intro cw cf hmem i hi
  have hok := buildTrie_TrieOK ws hws
  rw [← hroot] at hok
  rw [SpellChecker.get_corrections] at hmem
  obtain ⟨path, hcw, _, _, _, hsuffix⟩ :=
    getCorrectionsGo_sound sc word sc.trie_root [] none 0 hok (Nat.zero_le _) cw cf hmem
  rw [hcw]
  simpa using hsuffix i hi

theorem C3_witness :
    (∀ p ∈ wsAB, Trie.END_MARKER ∉ p.1) ∧
    (['a'], 1) ∈ scC.get_corrections scC.trie_root ['a'] ∧
    (['a'] : List Char).get? 0 = (['a'] : List Char).get? 0 :=
  ⟨by decide, by rw [scC_corrections]; decide,
    C3_suffix_protection scC wsAB ['a'] rfl (by decide) ['a'] 1
      (by rw [scC_corrections]; decide) 0 (by decide)⟩

/-- C4: on a trie built only by `add_word` calls, every candidate emitted by
the search has exactly the length of the query word: the search consumes one
trie edge per query character and never inserts or deletes characters. -/
theorem C4_length_invariance (sc : SpellChecker) (ws : List (List Char × Nat))
    (word : List Char) (hroot : sc.trie_root = buildTrie ws)
    (hws : ∀ p ∈ ws, Trie.END_MARKER ∉ p.1) :
    ∀ cw cf, (cw, cf) ∈ sc.get_corrections sc.trie_root word →
      cw.length = word.length := by
  intro cw cf hmem
  have hok := buildTrie_TrieOK ws hws
  rw [← hroot] at hok
  rw [SpellChecker.get_corrections] at hmem
  obtain ⟨path, hcw, hlen, _, _, _⟩ :=
    getCorrectionsGo_sound sc word sc.trie_root [] none 0 hok (Nat.zero_le _) cw cf hmem
  rw [hcw]
  simpa using hlen

theorem C4_witness :
    (['b'], 5) ∈ scAB.get_corrections scAB.trie_root ['a'] ∧
    (['b'] : List Char).length = (['a'] : List Char).length :=
  ⟨by rw [scAB_corrections]; decide,
    C4_length_invariance scAB wsAB ['a'] rfl (by decide) ['b'] 5
      (by rw [scAB_corrections]; decide)⟩

/-- C5: on a trie built only by `add_word` calls, every candidate emitted by
the search started at the root with `done_corrections = 0` differs from the
query word in at most `corrections_limit` character positions. -/
theorem C5_corrections_budget (sc : SpellChecker) (ws : List (List Char × Nat))
    (word : List Char) (hroot : sc.trie_root = buildTrie ws)
    (hws : ∀ p ∈ ws, Trie.END_MARKER ∉ p.1) :
    ∀ cw cf, (cw, cf) ∈ sc.get_corrections sc.trie_root word →
      diffCount cw word ≤ sc.corrections_limit := by
  intro cw cf hmem
  have hok := buildTrie_TrieOK ws hws
  rw [← hroot] at hok
  rw [SpellChecker.get_corrections] at hmem
  obtain ⟨path, hcw, _, _, hdiff, _⟩ :=
    getCorrectionsGo_sound sc word sc.trie_root [] none 0 hok (Nat.zero_le _) cw cf hmem
  rw [hcw]
  simpa using hdiff

theorem C5_witness :
    (['b'], 5) ∈ scAB.get_corrections scAB.trie_root ['a'] ∧
    diffCount ['b'] ['a'] ≤ scAB.corrections_limit :=
  ⟨by rw [scAB_corrections]; decide,
    C5_corrections_budget scAB wsAB ['a'] rfl (by decide) ['b'] 5
      (by rw [scAB_corrections]; decide)⟩

/-- C6: after building a trie only by `add_word` calls from an empty root,
(1) every terminal-marker child reached by following a path spells exactly
that path, is the fresh node a single insertion writes, and the root's flat
vocabulary map agrees with its frequency (so the path spelling a word is
the unique one); and (2) every inserted word, with `f` the frequency of its
last insertion, has at the end of its path exactly the single-insertion
terminal `Trie(True, w, f)` and the flat map records `f` — overwrite, not
additive, semantics. -/
theorem C6_add_word_invariant (ws : List (List Char × Nat))
    (hws : ∀ p ∈ ws, Trie.END_MARKER ∉ p.1) :
    (∀ q n term, (buildTrie ws).findNode q = some n →
        dictGet n.children Trie.END_MARKER = some term →
        ∃ f, term = Trie.mk true q f [] [] ∧
          dictGet (buildTrie ws).vocabulary q = some f) ∧
    (∀ w f, Trie.END_MARKER ∉ w → lastEntry ws w = some f →
        (buildTrie ws).findNodeTerm w = some (Trie.mk true w f [] []) ∧
        dictGet (buildTrie ws).vocabulary w = some f) := by
  constructor
  · intro q n term hf ht
    have hok := buildTrie_TrieOK ws hws
    simpa using findNode_term_spells q [] (buildTrie ws) hok n term hf ht
  · exact buildTrie_findNodeTerm ws hws

theorem C6_witness :
    (∀ p ∈ wsAB ++ [(['a'], 7)], Trie.END_MARKER ∉ p.1) ∧
    lastEntry (wsAB ++ [(['a'], 7)]) ['a'] = some 7 ∧
    (buildTrie (wsAB ++ [(['a'], 7)])).findNodeTerm ['a'] =
      some (Trie.mk true ['a'] 7 [] []) ∧
    dictGet (buildTrie (wsAB ++ [(['a'], 7)])).vocabulary ['a'] = some 7 :=
  ⟨by decide, by decide,
    ((C6_add_word_invariant (wsAB ++ [(['a'], 7)]) (by decide)).2 ['a'] 7
      (by decide) (by decide)).1,
    ((C6_add_word_invariant (wsAB ++ [(['a'], 7)]) (by decide)).2 ['a'] 7
      (by decide) (by decide)).2⟩

/-- The weight formula as the spec's data-model section states it:
`Z·count_by_kind + F·count_by_chars + S·count_by_chars_and_context`, with
the by-kind table actually consulted.  Stated from the spec's words for
comparison with the source's `get_weight_of_error`. -/
def get_weight_spec_formula (m : ErrorModel)
    (old_char new_char preceding_ctx : Option Char) : ℚ :=
  let op := EditOp old_char new_char preceding_ctx
  m.Z * ((dictGet m.zero_level op.type).getD 0 : Nat)
    + m.F * ((dictGet m.first_level op).getD 0 : Nat)
    + m.S * ((dictGet m.second_level op).getD 0 : Nat)

/-- A model trained on one pair with `Z = 1`, `F = S = 0`. -/
def em7 : ErrorModel :=
  (ErrorModel.mk 1 0 0 [] [] []).add_spelling_correction ['c','e','t'] ['c','a','t']

/-- C7 (code bug): the source's `get_weight_of_error` guards the by-kind
term with `op in self.zero_level`, testing membership of the `EditOp` tuple
in a dict keyed by `OpType`, which never holds; the `Z` term is therefore
always 0.  On a model with `Z = 1` whose by-kind replace count is 3, the
code returns 0 where the claim's (and spec's) formula gives 3. -/
theorem C7_zero_level_dropped :
    dictGet em7.zero_level OpType.replace = some 3 ∧
    em7.get_weight_of_error (some 'e') (some 'a') (some 'c') = 0 ∧
    get_weight_spec_formula em7 (some 'e') (some 'a') (some 'c') = 3 := by
  refine ⟨by decide, ?_, ?_⟩
  · iterate 6 (try simp [em7, ErrorModel.get_weight_of_error, EditOp, dictGet,
        List.find?, ErrorModel.add_spelling_correction, ErrorModel.update_models,
        editops, editopsFuel, ctxAt, dictIncr, List.foldl, List.get?, List.range,
        Option.getD, Option.map]
               try norm_num)
  · iterate 6 (try simp [em7, get_weight_spec_formula, EditOp, dictGet,
        List.find?, ErrorModel.add_spelling_correction, ErrorModel.update_models,
        editops, editopsFuel, ctxAt, dictIncr, List.foldl, List.get?, List.range,
        Option.getD, Option.map]
               try norm_num)

/-- C8: training on a pair of identical words increments only
identity-replace counts — one per character of the word, each with its
preceding context — in all three tables, and never touches an insert-kind
or delete-kind count or any non-identity entry. -/
theorem C8_training_identity (m : ErrorModel) (w : List Char) :
    ((dictGet (m.add_spelling_correction w w).zero_level OpType.replace).getD 0 =
        (dictGet m.zero_level OpType.replace).getD 0 + w.length) ∧
    (∀ k, k ≠ OpType.replace →
        dictGet (m.add_spelling_correction w w).zero_level k =
          dictGet m.zero_level k) ∧
    (∀ op, op.old_char ≠ op.new_char ∨ op.type ≠ OpType.replace →
        dictGet (m.add_spelling_correction w w).first_level op =
            dictGet m.first_level op ∧
          dictGet (m.add_spelling_correction w w).second_level op =
            dictGet m.second_level op) ∧
    (∀ op, (dictGet (m.add_spelling_correction w w).second_level op).getD 0 =
        (dictGet m.second_level op).getD 0 +
          (List.range w.length).countP
            (fun i => decide (EditOp (w.get? i) (w.get? i) (ctxAt w i) = op))) := by
  rw [add_spelling_correction_self]
  refine ⟨?_, ?_, ?_, ?_⟩
  · rw [identityFold_zero_replace]
    simp
  · intro k hk
    exact identityFold_zero_untouched w k hk _ m
  · intro op hop
    have hgen : ∀ (ctx : Option Char), ∀ i ∈ List.range w.length,
        EditOp (w.get? i) (w.get? i) ctx ≠ op := by
      intro ctx i hmem hkey
      have hi : i < w.length := List.mem_range.mp hmem
      cases hw : w.get? i with
      | none =>
          have := List.get?_eq_none.mp hw
          omega
      | some c =>
          rw [hw] at hkey
          rcases hop with hop | hop
          · apply hop
            rw [← hkey]
            rfl
          · apply hop
            rw [← hkey]
            rfl
    exact ⟨identityFold_first_untouched w op _ m (hgen none),
      identityFold_second_untouched w op _ m (fun i him => hgen (ctxAt w i) i him)⟩
  · exact fun op => identityFold_second_count w op _ m

theorem C8_witness :
    (dictGet ((em0.add_spelling_correction ['a','b'] ['a','b']).zero_level)
        OpType.replace).getD 0 =
      (dictGet em0.zero_level OpType.replace).getD 0 + 2 ∧
    dictGet ((em0.add_spelling_correction ['a','b'] ['a','b']).zero_level)
        OpType.insert =
      dictGet em0.zero_level OpType.insert :=
  ⟨(C8_training_identity em0 ['a','b']).1,
    (C8_training_identity em0 ['a','b']).2.1 OpType.insert (by decide)⟩

/-- The concrete scenario's trie: `{cat: 100, cap: 10, can: 5}`. -/
def trie9 : Trie :=
  buildTrie [(['c','a','t'], 100), (['c','a','p'], 10), (['c','a','n'], 5)]

/-- The concrete scenario's error model, trained on the single pair
`(cet, cat)`, with the coefficients `main` uses (`Z=0, F=0.4, S=0.6`). -/
def em9 : ErrorModel :=
  (ErrorModel.mk 0 (2/5) (3/5) [] [] []).add_spelling_correction
    ['c','e','t'] ['c','a','t']

/-- `corrections_limit = 1`, `ignore_suffix_len = 0`, other parameters at
their defaults (`max_nodes_to_go = 5`, `weight_threshold_to_go = 0`). -/
def sc9 : SpellChecker := SpellChecker.mk trie9 em9 1 5 0 0

/-- C9: on vocabulary `{cat: 100, cap: 10, can: 5}` with an error model
trained on `(cet, cat)`, `corrections_limit = 1` and `ignore_suffix_len = 0`,
the checker corrects `cet` to `cat`, and returns the already-valid `cat`
unchanged. -/
theorem C9_concrete_scenario :
    sc9.correct_spelling ['c','e','t'] = ['c','a','t'] ∧
    sc9.correct_spelling ['c','a','t'] = ['c','a','t'] := by
  constructor
  · iterate 8 (try simp [sc9, trie9, em9, SpellChecker.correct_spelling,
        SpellChecker.get_corrections, SpellChecker.getCorrectionsGo, buildTrie,
        Trie.add_word, Trie.addWordGo, Trie.new, Trie.withChildren, Trie.withVocabulary,
        dictSet, dictGet, Trie.children, Trie.vocabulary, Trie.word, Trie.freq,
        Trie.END_MARKER, ErrorModel.get_weight_of_error, EditOp, dictIncr,
        sortBySndDesc, sortByFreqDesc, stableSort, sortInsert, List.find?,
        List.filterMap, List.foldl, ErrorModel.add_spelling_correction,
        ErrorModel.update_models, editops, editopsFuel, ctxAt, List.get?, List.take,
        List.filter, List.map, List.flatten, List.isEmpty, Option.getD, Option.map]
               try norm_num)
  · iterate 8 (try simp [sc9, trie9, em9, SpellChecker.correct_spelling,
        SpellChecker.get_corrections, SpellChecker.getCorrectionsGo, buildTrie,
        Trie.add_word, Trie.addWordGo, Trie.new, Trie.withChildren, Trie.withVocabulary,
        dictSet, dictGet, Trie.children, Trie.vocabulary, Trie.word, Trie.freq,
        Trie.END_MARKER, ErrorModel.get_weight_of_error, EditOp, dictIncr,
        sortBySndDesc, sortByFreqDesc, stableSort, sortInsert, List.find?,
        List.filterMap, List.foldl, ErrorModel.add_spelling_correction,
        ErrorModel.update_models, editops, editopsFuel, ctxAt, List.get?, List.take,
        List.filter, List.map, List.flatten, List.isEmpty, Option.getD, Option.map]
               try norm_num)

/-- C10: on a trie built only by `add_word` calls, the checker returns
either the query word itself or a word recorded in the root's flat
vocabulary map — never a string outside `{word} ∪ vocabulary`. -/
theorem C10_output_in_vocab (sc : SpellChecker) (ws : List (List Char × Nat))
    (word : List Char) (hroot : sc.trie_root = buildTrie ws)
    (hws : ∀ p ∈ ws, Trie.END_MARKER ∉ p.1) :
    sc.correct_spelling word = word ∨
    ∃ f, dictGet sc.trie_root.vocabulary (sc.correct_spelling word) = some f := by
  rcases correct_spelling_cases sc word with ⟨_, h⟩ | ⟨best, bf, hmem, _, hgate⟩
  · left; exact h
  · rcases hgate with ⟨fw, _, _, h⟩ | ⟨_, h⟩
    · left; exact h
    · right
      have hok := buildTrie_TrieOK ws hws
      rw [← hroot] at hok
      rw [SpellChecker.get_corrections] at hmem
      obtain ⟨path, _, _, hvoc, _, _⟩ :=
        getCorrectionsGo_sound sc word sc.trie_root [] none 0 hok (Nat.zero_le _)
          best bf hmem
      exact ⟨bf, by rw [h]; exact hvoc⟩

theorem C10_witness :
    scAB.correct_spelling ['a'] = ['a'] ∨
    ∃ f, dictGet scAB.trie_root.vocabulary (scAB.correct_spelling ['a']) = some f :=
  C10_output_in_vocab scAB wsAB ['a'] rfl (by decide)

theorem C1_witness :
    (scAB.get_corrections scAB.trie_root ['a'] = [] ∧
      scAB.correct_spelling ['a'] = ['a']) ∨
    (∃ best bf, (best, bf) ∈ scAB.get_corrections scAB.trie_root ['a'] ∧
      (∀ p ∈ scAB.get_corrections scAB.trie_root ['a'], p.2 ≤ bf) ∧
      ((∃ fw, dictGet scAB.trie_root.vocabulary ['a'] = some fw ∧ bf < 5 * fw ∧
          scAB.correct_spelling ['a'] = ['a']) ∨
       ((∀ fw, dictGet scAB.trie_root.vocabulary ['a'] = some fw → 5 * fw ≤ bf) ∧
          scAB.correct_spelling ['a'] = best))) :=
  C1_final_selection scAB ['a']

end Spellcheck
